import Mathlib

/-!
# Hercules: a multi-part downloader

A shallow embedding of `hercules.go` (package `hercules`).

* Go `int64` / `int` values are integers taken modulo `2^64` (`wrap64`) at
  every arithmetic operation of the source.
* A Go `error` is `Option String` (`none` is `nil`).
* A runtime panic (index out of range, `make` with a negative length) is the
  `Exec.panic` outcome; nothing in the package recovers from a panic, so the
  state at a panic is not kept.
* The `sync.WaitGroup` is its counter, an integer: `Add(1)` adds one and
  `Done()` subtracts one, and panics when the counter would fall below zero.
* The logger is optional and only prints; its calls are left out.
* The network and the file are parameters: what `http.NewRequest`,
  `client.Do`, `Body.Read` and `File.WriteAt` return.
-/

namespace Herc

/-- Two's-complement wrap-around of a 64-bit signed Go integer. -/
def wrap64 (x : Int) : Int := (x + 2 ^ 63) % 2 ^ 64 - 2 ^ 63

/-- Go `error`: `none` is `nil`. -/
abbrev GoError := Option String

/-- Outcome of running a piece of Go code: a normal return or a runtime panic. -/
inductive Exec (α : Type) where
  | ret : α → Exec α
  | panic : String → Exec α
deriving DecidableEq, Repr

/-- Go `type Part struct { Start int64; End int64 }`. -/
structure Part where
  Start : Int
  End : Int
deriving DecidableEq, Repr

/-- Go `type Hercules struct`: `File` is the `*os.File` (`none` is `nil`, `some k`
an open handle), `wg` the counter of the `sync.WaitGroup`. -/
structure Hercules where
  Addr : String
  File : Option Nat
  fs : Int
  parts : List Part
  wg : Int
deriving DecidableEq, Repr

/-- Body of the loop of `GenerateParts` for loop variable `part`. -/
def generatePart (fs n partSize part : Int) : Part :=
  if part = wrap64 (n - 1) then
    { Start := wrap64 (part * partSize), End := fs }
  else
    { Start := wrap64 (part * partSize),
      End := wrap64 (wrap64 (wrap64 (part + 1) * partSize) - 1) }

/-- The loop `for part = 0; part < n; part++ { h.parts[part] = ... }` of
`GenerateParts`, where `n = len(h.parts)`. -/
def generateLoop (fs n partSize : Int) (parts : List Part) : List Part :=
  (List.range parts.length).foldl
    (fun ps part => ps.set part (generatePart fs n partSize part)) parts

/-- Go `func (h *Hercules) GenerateParts() error`. -/
def GenerateParts (h : Hercules) : Hercules × GoError :=
  if h.fs = 0 then
    (h, some "could not generate parts for a zero-sized destination")
  else
    let n : Int := h.parts.length
    if n = 0 then
      (h, some "could not generate parts for zero workers")
    else
      let partSize := wrap64 (Int.tdiv h.fs n)
      ({ h with parts := generateLoop h.fs n partSize h.parts }, none)

/-- The size `getPart` compares with the `Content-Length` of the response
(`partSize` in `getPart`), for an index already known to be in range. -/
def wantedSize (parts : List Part) (partNum : Int) (p : Part) : Int :=
  if partNum = wrap64 ((parts.length : Int) - 1) then
    wrap64 (p.End - p.Start)
  else
    wrap64 (wrap64 (p.End - p.Start) + 1)

/-- A session as `New` leaves it, with `c` zero-valued parts. -/
def freshSession (addr : String) (fp : Option Nat) (c : Nat) : Hercules :=
  { Addr := addr, File := fp, fs := 0, parts := List.replicate c ⟨0, 0⟩, wg := 0 }

/-- Offset `x` lies in the inclusive byte range `[Start, End]` of a part. -/
def inPart (x : Int) (p : Part) : Prop := p.Start ≤ x ∧ x ≤ p.End

instance (x : Int) (p : Part) : Decidable (inPart x p) := by
  unfold inPart; infer_instance

/-! ## Construction and part assignment -/

/-- Go `func New(addr string, fp *os.File, numberOfWorker ...int) (*Hercules, error)`.
`make([]Part, c)` panics for a negative `c`. -/
def New (addr : String) (fp : Option Nat) (numberOfWorker : List Int) :
    Exec (Option Hercules × GoError) :=
  match fp with
  | none => .ret (none, some "file pointer can't be nil")
  | some f =>
    let c : Int := match numberOfWorker with
      | [] => 0
      | c0 :: _ => c0
    if c < 0 then .panic "makeslice: len out of range"
    else .ret (some (freshSession addr (some f) c.toNat), none)

/-- Go `func (h *Hercules) SetWorkerNumber(n int)`. -/
def SetWorkerNumber (h : Hercules) (n : Int) : Exec Hercules :=
  if n < 0 then .panic "makeslice: len out of range"
  else .ret { h with parts := List.replicate n.toNat ⟨0, 0⟩ }

/-- Go `func (h *Hercules) AddPartOn(index int, start, end int64) error`.
Indexing `h.parts[index]` with a negative `index` is a runtime panic. -/
def AddPartOn (h : Hercules) (index : Int) (start end_ : Int) : Exec (Hercules × GoError) :=
  if h.parts.length = 0 ∨ index ≥ (h.parts.length : Int) then
    .ret (h, some "the part number is greater than the capacity")
  else if index < 0 then
    .panic "index out of range"
  else
    .ret ({ h with parts := h.parts.set index.toNat ⟨start, end_⟩ }, none)

/-- Go `func (h *Hercules) Run()`: `h.wg.Add(1)`. -/
def Run (h : Hercules) : Hercules := { h with wg := h.wg + 1 }

/-- Go `func (h *Hercules) Done(n int)`: `h.wg.Done()`, which panics when the
counter would become negative. -/
def Done (h : Hercules) (_n : Int) : Exec Hercules :=
  if h.wg - 1 < 0 then .panic "sync: negative WaitGroup counter"
  else .ret { h with wg := h.wg - 1 }

/-! ## The network and the destination file -/

/-- One byte of the file or of a response body. -/
abbrev Byte := Nat

/-- Content of the destination file, by byte offset. -/
abbrev Disk := Int → Byte

/-- What one call `body.Read(buf)` returns: the bytes placed in `buf[0:b]` and
the error (`some "EOF"` at end of stream). -/
structure ReadResult where
  data : List Byte
  err : GoError
deriving DecidableEq, Repr

/-- A response, as far as the code reads it: whether the `Accept-Ranges` key is
present; the `Content-Length` header (`none` when the key is absent, otherwise
what `strconv.ParseInt` returns on its first value); and the successive results
of `Body.Read`. A body whose list is used up returns `(0, EOF)`. -/
structure Response where
  acceptRanges : Bool
  contentLength : Option (Except String Int)
  body : List ReadResult

/-- The outside of the program: the error of `http.NewRequest` and the answer of
`client.Do` to a request with the given `Range` header (`none`: no such header). -/
structure Net where
  newRequest : GoError
  doRequest : Option Part → Except String Response

/-- Result of `File.WriteAt(b, off)`: the new content of the file, the count of bytes
reported written, and the error. -/
abbrev WriteAtFn := Disk → List Byte → Int → Disk × Int × GoError

/-- The file content, the requests sent so far (each by its `Range`). -/
structure World where
  disk : Disk
  requests : List (Option Part)

/-- The file with `data` stored from offset `off` on. -/
def overwrite (disk : Disk) (data : List Byte) (off : Int) : Disk :=
  fun i => if off ≤ i ∧ i < off + data.length then data.getD (i - off).toNat 0 else disk i

/-- Model of `(*os.File).WriteAt` without an I/O failure: a negative offset is
an error, otherwise every byte is written. -/
def osWriteAt : WriteAtFn := fun disk data off =>
  if off < 0 then (disk, 0, some "negative offset")
  else (overwrite disk data off, data.length, none)

/-- A `WriteAt` that reports no error writes every byte it was given. -/
def writesInFull (writeAt : WriteAtFn) : Prop :=
  ∀ (disk : Disk) (data : List Byte) (off : Int), 0 ≤ off →
    writeAt disk data off = (overwrite disk data off, (data.length : Int), none)

/-- The bytes of the file at `[off, off + len)`. -/
def readRange (disk : Disk) (off : Int) (len : Nat) : List Byte :=
  (List.range len).map (fun (i : Nat) => disk (off + i))

/-- The statements `h.Done(n); return err`, and a `return err` with a deferred
`h.Done(n)`: the error is returned unless `Done` panics. -/
def returnAfterDone (h : Hercules) (n : Int) (w : World) (e : GoError) :
    Exec (Hercules × World × GoError) :=
  match Done h n with
  | .panic m => .panic m
  | .ret h1 => .ret (h1, w, e)

/-! ## Preload -/

/-- Go `func (h *Hercules) FetchHeaders() error`. -/
def FetchHeaders (net : Net) (h : Hercules) (w : World) : Exec (Hercules × World × GoError) :=
  match net.newRequest with
  | some e => .ret (h, w, some e)
  | none =>
    let w1 : World := { w with requests := w.requests ++ [none] }
    match net.doRequest none with
    | .error e => .ret (h, w1, some e)
    | .ok res =>
      if res.acceptRanges = false then
        .ret (h, w1, some "server doesn't support multi-part download")
      else
        match res.contentLength with
        | none => .panic "index out of range [0] with length 0"
        | some (.error e) => .ret (h, w1, some e)
        | some (.ok size) => .ret ({ h with fs := size }, w1, none)

/-- Go `func (h *Hercules) Preload() error`. -/
def Preload (net : Net) (h : Hercules) (w : World) : Exec (Hercules × World × GoError) :=
  if h.parts.length = 0 then
    .ret (h, w, some "for using Preload, you must set number of workers first")
  else
    match FetchHeaders net h w with
    | .panic m => .panic m
    | .ret (h1, w1, some e) => .ret (h1, w1, some e)
    | .ret (h1, w1, none) =>
      match GenerateParts h1 with
      | (h2, some e) => .ret (h2, w1, some e)
      | (h2, none) => .ret (h2, w1, none)

/-! ## Workers -/

/-- The `for` loop of `savePartOnDisk`, by the results of the successive calls
of `body.Read`. -/
def saveLoop (writeAt : WriteAtFn) (n : Int) :
    List ReadResult → Disk → Int → Disk × GoError
  | [], disk, _ => (disk, none)
  | r :: rest, disk, offset =>
    match r.err with
    | some e => if e = "EOF" then (disk, none) else (disk, some e)
    | none =>
      match writeAt disk r.data offset with
      | (disk1, _, some e) =>
        (disk1, some ("an error on writing part #" ++ toString n ++ " occurred: " ++ e))
      | (disk1, nw, none) => saveLoop writeAt n rest disk1 (wrap64 (nw + offset))

/-- Go `func (h *Hercules) savePartOnDisk(body io.ReadCloser, n int) error`; the
deferred `h.Done(n)` runs on every return. -/
def savePartOnDisk (writeAt : WriteAtFn) (h : Hercules) (w : World)
    (body : List ReadResult) (n : Int) : Exec (Hercules × World × GoError) :=
  if n < 0 then .panic "index out of range"
  else
    match h.parts[n.toNat]? with
    | none => .panic "index out of range"
    | some p =>
      let r := saveLoop writeAt n body w.disk p.Start
      returnAfterDone h n { w with disk := r.1 } r.2

/-- Go `func (h *Hercules) getPart(partNum int) error`. -/
def getPart (net : Net) (writeAt : WriteAtFn) (h : Hercules) (w : World) (partNum : Int) :
    Exec (Hercules × World × GoError) :=
  if h.parts.length = 0 ∨ partNum ≥ (h.parts.length : Int) then
    .ret (h, w, some "the part number is greater than the capacity")
  else
    match net.newRequest with
    | some e => returnAfterDone h 4 w (some e)
    | none =>
      if partNum < 0 then .panic "index out of range"
      else
        match h.parts[partNum.toNat]? with
        | none => .panic "index out of range"
        | some p =>
          let w1 : World := { w with requests := w.requests ++ [some p] }
          match net.doRequest (some p) with
          | .error e => returnAfterDone h 4 w1 (some e)
          | .ok resp =>
            match resp.contentLength with
            | none => .panic "index out of range [0] with length 0"
            | some (.error e) => returnAfterDone h 4 w1 (some e)
            | some (.ok size) =>
              let partSize := wantedSize h.parts partNum p
              if size ≠ partSize then
                returnAfterDone h 4 w1 (some ("could not fetch part #" ++ toString partNum
                  ++ ", wants " ++ toString partSize ++ "B, " ++ toString size ++ "B given"))
              else
                savePartOnDisk writeAt h w1 resp.body partNum

/-- Go `func (h *Hercules) Start(partNum int) error`. -/
def Start (net : Net) (writeAt : WriteAtFn) (h : Hercules) (w : World) (partNum : Int) :
    Exec (Hercules × World × GoError) :=
  if h.parts.length = 0 ∨ partNum ≥ (h.parts.length : Int) then
    .ret (h, w, some "the part number is greater than the capacity")
  else
    getPart net writeAt h w partNum

/-- Go `func (h *Hercules) StartAll() chan error`: the session after `Run` was
called once per part, and the indices of the workers spawned. -/
def StartAll (h : Hercules) : Hercules × List Int :=
  ((List.range h.parts.length).foldl (fun h1 _ => Run h1) h,
   (List.range h.parts.length).map (fun (i : Nat) => (i : Int)))

/-! ## Fixtures -/

/-- A read that delivers `d` with a `nil` error. -/
def dataRead (d : List Byte) : ReadResult := ⟨d, none⟩

/-- The read at end of stream: no bytes, `io.EOF`. -/
def eofRead : ReadResult := ⟨[], some "EOF"⟩

/-- A server that answers every request with the same headers and body. -/
def fixedServer (acceptRanges : Bool) (contentLength : Option (Except String Int))
    (body : List ReadResult) : Net :=
  { newRequest := none, doRequest := fun _ => .ok ⟨acceptRanges, contentLength, body⟩ }

/-- An all-zero file and no request sent yet. -/
def emptyWorld : World := { disk := fun _ => 0, requests := [] }

/-- The error a run returned; `none` when it panicked. -/
def returned (r : Exec (Hercules × World × GoError)) : Option GoError :=
  match r with
  | .ret (_, _, e) => some e
  | .panic _ => none

/-! ## Properties of a plan -/

/-- The parts are ordered by `Start`. -/
def orderedByStart (ps : List Part) : Prop :=
  ps.Pairwise (fun p q => p.Start ≤ q.Start)

/-- No byte offset lies in two parts of the list. -/
def pairwiseDisjoint (ps : List Part) : Prop :=
  ps.Pairwise (fun p q => ∀ x : Int, ¬ (inPart x p ∧ inPart x q))

/-- Offset `x` lies in some part of the list. -/
def covered (ps : List Part) (x : Int) : Prop := ∃ p ∈ ps, inPart x p

/-- The part `GenerateParts` stores at index `i` for file size `fs` and `n`
workers, in unbounded integer arithmetic. -/
def planPart (fs : Int) (n i : Nat) : Part :=
  ⟨(i : Int) * Int.tdiv fs n, if i + 1 = n then fs else ((i : Int) + 1) * Int.tdiv fs n - 1⟩

/-- Number of byte offsets of the resource, `[0, fs)`, that lie in the inclusive
range `[Start, End]` of a part: what a server holding `fs` bytes sends for the
request `Range: bytes=Start-End`. -/
def bytesInRange (fs : Int) (p : Part) : Int :=
  (((Finset.Ico 0 fs).filter (fun x => inPart x p)).card : Int)

/-- The sizes `getPart` wants for the parts of a list, by index. -/
def wantedSizes (parts : List Part) : List Int :=
  (List.range parts.length).map
    (fun (i : Nat) => wantedSize parts (i : Int) (parts.getD i ⟨0, 0⟩))

/-- A session with `n` zero-valued parts whose probed file size is `fs`. -/
def session (fs : Int) (n : Nat) : Hercules :=
  { freshSession "http://host/file" (some 3) n with fs := fs }

/-! ## Arithmetic and list lemmas -/

theorem wrap64_id {x : Int} (h1 : -2 ^ 63 ≤ x) (h2 : x < 2 ^ 63) : wrap64 x = x := by
  unfold wrap64; omega

theorem foldl_set_range {α : Type} (f : Nat → α) (l : List α) :
    ∀ k, k ≤ l.length →
      (List.range k).foldl (fun ps i => ps.set i (f i)) l
        = (List.range k).map f ++ l.drop k := by
  intro k
  induction k with
  | zero => intro _; simp
  | succ k ih =>
    intro hk
    have hk1 : k < l.length := hk
    rw [List.range_succ, List.foldl_append, ih (Nat.le_of_lt hk1)]
    simp only [List.foldl_cons, List.foldl_nil, List.map_append, List.map_cons, List.map_nil]
    rw [List.set_append_right _ _ (by simp)]
    simp only [List.length_map, List.length_range, Nat.sub_self]
    rw [List.drop_eq_getElem_cons hk1, List.set_cons_zero]
    simp only [List.append_assoc, List.singleton_append]

theorem generateLoop_eq (fs n partSize : Int) (parts : List Part) :
    generateLoop fs n partSize parts
      = (List.range parts.length).map (fun (i : Nat) => generatePart fs n partSize (i : Int)) := by
  unfold generateLoop
  rw [foldl_set_range (fun (i : Nat) => generatePart fs n partSize (i : Int)) parts _
    (Nat.le_refl _)]
  simp

theorem tdiv_mul_bounds_nonneg (fs : Int) (n i : Nat) (hi : i < n) (hfs : 0 ≤ fs) :
    0 ≤ Int.tdiv fs n ∧ 0 ≤ (i : Int) * Int.tdiv fs n
      ∧ (i : Int) * Int.tdiv fs n + Int.tdiv fs n ≤ fs := by
  have hn : (0 : Int) < n := by omega
  have hq : 0 ≤ Int.tdiv fs n := Int.tdiv_nonneg hfs (le_of_lt hn)
  have hm : 0 ≤ Int.tmod fs n := Int.tmod_nonneg _ hfs
  have hd := Int.tdiv_add_tmod fs n
  have h1 : ((i : Int) + 1) * Int.tdiv fs n ≤ (n : Int) * Int.tdiv fs n :=
    Int.mul_le_mul_of_nonneg_right (by omega) hq
  have h2 : 0 ≤ (i : Int) * Int.tdiv fs n := Int.mul_nonneg (by omega) hq
  have h3 : ((i : Int) + 1) * Int.tdiv fs n = (i : Int) * Int.tdiv fs n + Int.tdiv fs n := by
    ring
  refine ⟨hq, h2, ?_⟩
  omega

theorem tdiv_mul_bounds_nonpos (fs : Int) (n i : Nat) (hi : i < n) (hfs : fs ≤ 0) :
    Int.tdiv fs n ≤ 0 ∧ (i : Int) * Int.tdiv fs n ≤ 0
      ∧ fs ≤ (i : Int) * Int.tdiv fs n + Int.tdiv fs n := by
  have h := tdiv_mul_bounds_nonneg (-fs) n i hi (by omega)
  rw [Int.neg_tdiv] at h
  obtain ⟨h1, h2, h3⟩ := h
  have e : (i : Int) * -(Int.tdiv fs n) = -((i : Int) * Int.tdiv fs n) := by ring
  rw [e] at h2 h3
  refine ⟨by omega, by omega, by omega⟩

/-- The part written at index `i`, with all 64-bit arithmetic shown not to wrap. -/
theorem generatePart_eq (fs : Int) (n i : Nat) (hi : i < n)
    (hfs1 : -2 ^ 63 ≤ fs) (hfs2 : fs < 2 ^ 63) (hn : (n : Int) < 2 ^ 63) :
    generatePart fs n (wrap64 (Int.tdiv fs n)) i
      = planPart fs n i := by
  unfold planPart
  have h3 : ((i : Int) + 1) * Int.tdiv fs n = (i : Int) * Int.tdiv fs n + Int.tdiv fs n := by
    ring
  have hq : wrap64 (Int.tdiv fs n) = Int.tdiv fs n := by
    rcases le_total 0 fs with h | h
    · have := tdiv_mul_bounds_nonneg fs n 0 (by omega) h
      apply wrap64_id <;> omega
    · have := tdiv_mul_bounds_nonpos fs n 0 (by omega) h
      apply wrap64_id <;> omega
  have hn1 : wrap64 ((n : Int) - 1) = (n : Int) - 1 := by apply wrap64_id <;> omega
  have hs : wrap64 ((i : Int) * Int.tdiv fs n) = (i : Int) * Int.tdiv fs n := by
    rcases le_total 0 fs with h | h
    · have := tdiv_mul_bounds_nonneg fs n i hi h
      apply wrap64_id <;> omega
    · have := tdiv_mul_bounds_nonpos fs n i hi h
      apply wrap64_id <;> omega
  unfold generatePart
  rw [hq, hn1, hs]
  by_cases hl : i + 1 = n
  · have : (i : Int) = (n : Int) - 1 := by omega
    simp [this, hl]
  · have hne : ¬ (i : Int) = (n : Int) - 1 := by omega
    have hi1 : wrap64 ((i : Int) + 1) = (i : Int) + 1 := by apply wrap64_id <;> omega
    have hlt : i + 1 < n := by omega
    have he : wrap64 (wrap64 (((i : Int) + 1) * Int.tdiv fs n) - 1)
        = ((i : Int) + 1) * Int.tdiv fs n - 1 := by
      rcases le_total 0 fs with h | h
      · have hb := tdiv_mul_bounds_nonneg fs n (i + 1) hlt h
        have hc : ((i + 1 : Nat) : Int) = (i : Int) + 1 := by push_cast; rfl
        rw [hc] at hb
        have hm : wrap64 (((i : Int) + 1) * Int.tdiv fs n) = ((i : Int) + 1) * Int.tdiv fs n := by
          apply wrap64_id <;> omega
        rw [hm]
        apply wrap64_id <;> omega
      · have hb := tdiv_mul_bounds_nonpos fs n (i + 1) hlt h
        have hc : ((i + 1 : Nat) : Int) = (i : Int) + 1 := by push_cast; rfl
        rw [hc] at hb
        have hz : Int.tdiv fs n = 0 ∨ Int.tdiv fs n ≠ 0 := by omega
        have hz0 : Int.tdiv fs n = 0 → ((i : Int) + 1) * Int.tdiv fs n = 0 := by
          intro h0; rw [h0]; ring
        have hm : wrap64 (((i : Int) + 1) * Int.tdiv fs n) = ((i : Int) + 1) * Int.tdiv fs n := by
          apply wrap64_id <;> omega
        rw [hm]
        apply wrap64_id <;> omega
    rw [if_neg hne, if_neg hl, hi1, he]

/-- On a non-zero size and a non-empty part list `GenerateParts` succeeds and
stores `planPart` at every index. -/
theorem GenerateParts_eq (h : Hercules) (hfs : h.fs ≠ 0) (hn : h.parts.length ≠ 0)
    (hfs1 : -2 ^ 63 ≤ h.fs) (hfs2 : h.fs < 2 ^ 63) (hn2 : (h.parts.length : Int) < 2 ^ 63) :
    GenerateParts h
      = ({ h with parts := (List.range h.parts.length).map (planPart h.fs h.parts.length) },
          none) := by
  unfold GenerateParts
  have hn' : ¬ ((h.parts.length : Int) = 0) := by omega
  simp only [if_neg hfs, if_neg hn']
  rw [generateLoop_eq]
  congr 2
  apply List.map_congr_left
  intro i hi
  exact generatePart_eq h.fs h.parts.length i (List.mem_range.mp hi) hfs1 hfs2 hn2

theorem planPart_mem {fs : Int} {n : Nat} {p : Part} :
    p ∈ (List.range n).map (planPart fs n) ↔ ∃ i, i < n ∧ planPart fs n i = p := by
  simp [List.mem_map]

theorem plan_ordered (fs : Int) (n : Nat) (hfs : 0 ≤ fs) :
    orderedByStart ((List.range n).map (planPart fs n)) := by
  unfold orderedByStart
  rw [List.pairwise_map]
  refine List.Pairwise.imp_of_mem ?_ (List.pairwise_lt_range n)
  intro i j hi _ hij
  have hb := tdiv_mul_bounds_nonneg fs n i (List.mem_range.mp hi) hfs
  simp only [planPart]
  exact Int.mul_le_mul_of_nonneg_right (by omega) hb.1

theorem plan_disjoint (fs : Int) (n : Nat) (hfs : 0 ≤ fs) :
    pairwiseDisjoint ((List.range n).map (planPart fs n)) := by
  unfold pairwiseDisjoint
  rw [List.pairwise_map]
  refine List.Pairwise.imp_of_mem ?_ (List.pairwise_lt_range n)
  intro i j hi hj hij x hx
  have hjn := List.mem_range.mp hj
  have hb := tdiv_mul_bounds_nonneg fs n i (List.mem_range.mp hi) hfs
  have hne : ¬ i + 1 = n := by omega
  have hle : ((i : Int) + 1) * Int.tdiv fs n ≤ (j : Int) * Int.tdiv fs n :=
    Int.mul_le_mul_of_nonneg_right (by omega) hb.1
  simp only [inPart, planPart, if_neg hne] at hx
  omega

theorem plan_covered (fs : Int) (n : Nat) (hfs : 0 ≤ fs) (hn : 0 < n) (x : Int) :
    covered ((List.range n).map (planPart fs n)) x ↔ (0 ≤ x ∧ x ≤ fs) := by
  unfold covered
  constructor
  · rintro ⟨p, hp, hx⟩
    obtain ⟨i, hi, rfl⟩ := planPart_mem.mp hp
    have hb := tdiv_mul_bounds_nonneg fs n i hi hfs
    have h3 : ((i : Int) + 1) * Int.tdiv fs n = (i : Int) * Int.tdiv fs n + Int.tdiv fs n := by
      ring
    simp only [inPart, planPart] at hx
    split at hx <;> omega
  · rintro ⟨hx0, hxf⟩
    have hq := (tdiv_mul_bounds_nonneg fs n 0 hn hfs).1
    by_cases hlast : ((n : Int) - 1) * Int.tdiv fs n ≤ x
    · refine ⟨planPart fs n (n - 1), planPart_mem.mpr ⟨n - 1, by omega, rfl⟩, ?_⟩
      have hc : ((n - 1 : Nat) : Int) = (n : Int) - 1 := by omega
      have hl : n - 1 + 1 = n := by omega
      simp only [inPart, planPart, hc, if_pos hl]
      exact ⟨hlast, hxf⟩
    · have hlast' : x < ((n : Int) - 1) * Int.tdiv fs n := by omega
      have hqpos : 0 < Int.tdiv fs n := by
        by_contra hnp
        have h0 : Int.tdiv fs n = 0 := by omega
        rw [h0] at hlast'
        simp at hlast'
        omega
      have hk0 : 0 ≤ x / Int.tdiv fs n := Int.ediv_nonneg hx0 hq
      have hk1 : x / Int.tdiv fs n * Int.tdiv fs n ≤ x := Int.ediv_mul_le x (by omega)
      have hk2 : x < (x / Int.tdiv fs n + 1) * Int.tdiv fs n :=
        Int.lt_ediv_add_one_mul_self x hqpos
      have hk3 : x / Int.tdiv fs n < (n : Int) - 1 := by
        by_contra hge
        have : ((n : Int) - 1) * Int.tdiv fs n ≤ x / Int.tdiv fs n * Int.tdiv fs n :=
          Int.mul_le_mul_of_nonneg_right (by omega) hq
        omega
      obtain ⟨k, hk⟩ := Int.eq_ofNat_of_zero_le hk0
      have hkn : k + 1 < n := by omega
      refine ⟨planPart fs n k, planPart_mem.mpr ⟨k, by omega, rfl⟩, ?_⟩
      have hne : ¬ k + 1 = n := by omega
      simp only [inPart, planPart, if_neg hne]
      rw [hk] at hk1 hk2
      constructor <;> omega

theorem plan_getLast (fs : Int) (n : Nat) (p : Part)
    (hp : ((List.range n).map (planPart fs n)).getLast? = some p) : p.End = fs := by
  rw [List.getLast?_eq_getElem?] at hp
  simp only [List.length_map, List.length_range, List.getElem?_map] at hp
  rcases Nat.eq_zero_or_pos n with h0 | hpos
  · subst h0; simp at hp
  · rw [List.getElem?_range (by omega)] at hp
    simp only [Option.map_some', Option.some.injEq] at hp
    subst hp
    have hl : n - 1 + 1 = n := by omega
    simp [planPart, hl]

/-! ## The plan of `GenerateParts` -/

/-- C1, as the claim states it, fails: for `fs = 100` and 3 workers the last part
is `{66, 100}`, whose inclusive range holds the offset 100, outside `[0, 100)`. -/
theorem GenerateParts_covers_offset_fs :
    ¬ (orderedByStart (GenerateParts (session 100 3)).1.parts
        ∧ pairwiseDisjoint (GenerateParts (session 100 3)).1.parts
        ∧ ∀ x : Int, covered (GenerateParts (session 100 3)).1.parts x ↔ (0 ≤ x ∧ x < 100)) := by
  rintro ⟨_, _, hc⟩
  have h100 : covered (GenerateParts (session 100 3)).1.parts 100 :=
    ⟨⟨66, 100⟩, by decide, by decide⟩
  have := (hc 100).mp h100
  omega

/-- C1 (amended): for every file size `0 < fs` (an `int64`) and every positive
worker count, the parts `GenerateParts` writes, read as inclusive ranges
`[Start, End]`, are ordered by `Start`, pairwise disjoint, and cover exactly the
offsets `[0, fs]`: every offset of `[0, fs)` and the one offset `fs`, the `End`
of the last part. -/
theorem GenerateParts_plan_cover (h : Hercules) (hfs : 0 < h.fs) (hfs2 : h.fs < 2 ^ 63)
    (hn : 0 < h.parts.length) (hn2 : (h.parts.length : Int) < 2 ^ 63) :
    orderedByStart (GenerateParts h).1.parts
      ∧ pairwiseDisjoint (GenerateParts h).1.parts
      ∧ (∀ x : Int, covered (GenerateParts h).1.parts x ↔ (0 ≤ x ∧ x ≤ h.fs))
      ∧ (∀ p, (GenerateParts h).1.parts.getLast? = some p → p.End = h.fs) := by
  rw [GenerateParts_eq h (by omega) (by omega) (by omega) hfs2 hn2]
  exact ⟨plan_ordered _ _ (by omega), plan_disjoint _ _ (by omega),
    plan_covered _ _ (by omega) hn, plan_getLast _ _⟩

theorem GenerateParts_plan_cover_witness :
    orderedByStart (GenerateParts (session 100 3)).1.parts
      ∧ pairwiseDisjoint (GenerateParts (session 100 3)).1.parts
      ∧ (∀ x : Int, covered (GenerateParts (session 100 3)).1.parts x
          ↔ (0 ≤ x ∧ x ≤ (session 100 3).fs))
      ∧ (∀ p, (GenerateParts (session 100 3)).1.parts.getLast? = some p
          → p.End = (session 100 3).fs) :=
  GenerateParts_plan_cover (session 100 3) (by decide) (by decide) (by decide) (by decide)

/-- C2: for `fs = 100` and 3 workers `GenerateParts` writes exactly `{0,32}`,
`{33,65}`, `{66,100}`, and the size `getPart` wants for index 2 is
`End - Start = 34`, not 35: once `StartAll` has called `Run` for the three
workers, a response of 34 bytes passes the check of `getPart` and one of 35
bytes is refused. -/
theorem GenerateParts_100_3 :
    GenerateParts (session 100 3)
        = ({ session 100 3 with parts := [⟨0, 32⟩, ⟨33, 65⟩, ⟨66, 100⟩] }, none)
      ∧ wantedSize (GenerateParts (session 100 3)).1.parts 2 ⟨66, 100⟩ = 34
      ∧ wantedSize (GenerateParts (session 100 3)).1.parts 2 ⟨66, 100⟩ ≠ 35
      ∧ wantedSizes (GenerateParts (session 100 3)).1.parts = [33, 33, 34]
      ∧ (StartAll (GenerateParts (session 100 3)).1).1.wg = 3
      ∧ returned (getPart (fixedServer true (some (.ok 34)) [eofRead]) osWriteAt
          (StartAll (GenerateParts (session 100 3)).1).1 emptyWorld 2) = some none
      ∧ returned (getPart (fixedServer true (some (.ok 35)) [eofRead]) osWriteAt
          (StartAll (GenerateParts (session 100 3)).1).1 emptyWorld 2)
          = some (some "could not fetch part #2, wants 34B, 35B given") := by
  decide

/-- C3: `GenerateParts` returns an error if and only if the file size is 0 or the
part list is empty, and then leaves the session as it was; in every other case
it returns `nil`, keeps the length of the part list and writes every one of its
`n` indices with the part computed for that index. -/
theorem GenerateParts_error_iff (h : Hercules) :
    ((GenerateParts h).2 ≠ none ↔ (h.fs = 0 ∨ h.parts.length = 0))
      ∧ ((h.fs = 0 ∨ h.parts.length = 0) → (GenerateParts h).1 = h)
      ∧ (h.fs ≠ 0 → h.parts.length ≠ 0 →
          (GenerateParts h).2 = none
            ∧ (GenerateParts h).1.parts.length = h.parts.length
            ∧ ∀ i : Nat, i < h.parts.length →
                (GenerateParts h).1.parts[i]?
                  = some (generatePart h.fs h.parts.length
                      (wrap64 (Int.tdiv h.fs h.parts.length)) i)) := by
  by_cases hfs : h.fs = 0
  · simp [GenerateParts, hfs]
  · by_cases hn : h.parts.length = 0
    · simp [GenerateParts, hfs, hn]
    · have hn' : ¬ ((h.parts.length : Int) = 0) := by omega
      have e : GenerateParts h
          = ({ h with parts := (generateLoop h.fs h.parts.length
                (wrap64 (Int.tdiv h.fs h.parts.length)) h.parts) }, none) := by
        unfold GenerateParts
        simp only [if_neg hfs, if_neg hn']
      rw [e, generateLoop_eq]
      refine ⟨by simp [hfs, hn], fun hc => by rcases hc with hc | hc <;> contradiction, ?_⟩
      intro _ _
      refine ⟨rfl, by simp, ?_⟩
      intro i hi
      simp [List.getElem?_map, List.getElem?_range hi]

theorem GenerateParts_error_iff_witness :
    (GenerateParts (session 0 2)).1 = session 0 2
      ∧ ((GenerateParts (session (-7) 2)).2 = none
          ∧ (GenerateParts (session (-7) 2)).1.parts.length = (session (-7) 2).parts.length
          ∧ ∀ i : Nat, i < (session (-7) 2).parts.length →
              (GenerateParts (session (-7) 2)).1.parts[i]?
                = some (generatePart (session (-7) 2).fs (session (-7) 2).parts.length
                    (wrap64 (Int.tdiv (session (-7) 2).fs (session (-7) 2).parts.length)) i)) :=
  ⟨(GenerateParts_error_iff (session 0 2)).2.1 (Or.inl rfl),
   (GenerateParts_error_iff (session (-7) 2)).2.2 (by decide) (by decide)⟩

/-- C4 fails on the code for a file smaller than the worker count: for `fs = 1`
and 2 workers the part size is 0 and the first part is `{0, -1}`, whose `End`
is below its `Start`. -/
theorem GenerateParts_small_file :
    (GenerateParts (session 1 2)).1.parts = [⟨0, -1⟩, ⟨0, 1⟩]
      ∧ ¬ (∀ p, (GenerateParts (session 1 2)).1.parts[0]? = some p →
            0 ≤ p.Start ∧ p.Start ≤ p.End ∧ p.End < 1) := by
  refine ⟨by decide, ?_⟩
  intro hall
  have := hall ⟨0, -1⟩ (by decide)
  simp at this

/-- When the file has at least as many bytes as there are workers, every part
but the last satisfies `0 ≤ Start ≤ End < fs`. -/
theorem GenerateParts_inner_parts_in_bounds (h : Hercules) (hfs2 : h.fs < 2 ^ 63)
    (hn : 0 < h.parts.length) (hle : (h.parts.length : Int) ≤ h.fs)
    (i : Nat) (hi : i + 1 < h.parts.length) (p : Part)
    (hp : (GenerateParts h).1.parts[i]? = some p) :
    0 ≤ p.Start ∧ p.Start ≤ p.End ∧ p.End < h.fs := by
  rw [GenerateParts_eq h (by omega) (by omega) (by omega) hfs2 (by omega)] at hp
  simp only [List.getElem?_map, List.getElem?_range (show i < h.parts.length by omega),
    Option.map_some', Option.some.injEq] at hp
  subst hp
  have hb := tdiv_mul_bounds_nonneg h.fs h.parts.length i (by omega) (by omega)
  have hb1 := tdiv_mul_bounds_nonneg h.fs h.parts.length (i + 1) hi (by omega)
  have hc : ((i + 1 : Nat) : Int) = (i : Int) + 1 := by push_cast; rfl
  rw [hc] at hb1
  have h3 : ((i : Int) + 1) * Int.tdiv h.fs h.parts.length
      = (i : Int) * Int.tdiv h.fs h.parts.length + Int.tdiv h.fs h.parts.length := by ring
  have hq : 0 < Int.tdiv h.fs h.parts.length := by
    have hd := Int.tdiv_add_tmod h.fs h.parts.length
    have hm : Int.tmod h.fs h.parts.length < h.parts.length :=
      Int.tmod_lt_of_pos _ (by omega)
    by_contra hnp
    have h0 : Int.tdiv h.fs h.parts.length = 0 := by omega
    rw [h0] at hd
    simp at hd
    omega
  have hne : ¬ i + 1 = h.parts.length := by omega
  simp only [planPart, if_neg hne]
  omega

/-! ## The size `getPart` wants -/

theorem bytesInRange_eq (fs : Int) (p : Part) :
    bytesInRange fs p = ((min p.End (fs - 1) + 1 - max p.Start 0).toNat : Int) := by
  unfold bytesInRange
  have e : (Finset.Ico 0 fs).filter (fun x => inPart x p)
      = Finset.Icc (max p.Start 0) (min p.End (fs - 1)) := by
    ext x
    simp only [Finset.mem_filter, Finset.mem_Ico, Finset.mem_Icc, inPart]
    omega
  rw [e, Int.card_Icc]

theorem wantedSize_planPart (fs : Int) (n i : Nat) (ps : List Part) (hlen : ps.length = n)
    (hi : i < n) (hfs : 0 < fs) (hfs2 : fs < 2 ^ 63) (hn2 : (n : Int) < 2 ^ 63) :
    wantedSize ps i (planPart fs n i)
      = if i + 1 = n then fs - (i : Int) * Int.tdiv fs n else Int.tdiv fs n := by
  have hb := tdiv_mul_bounds_nonneg fs n i hi (by omega)
  have h3 : ((i : Int) + 1) * Int.tdiv fs n = (i : Int) * Int.tdiv fs n + Int.tdiv fs n := by
    ring
  have hn1 : wrap64 ((n : Int) - 1) = (n : Int) - 1 := by apply wrap64_id <;> omega
  unfold wantedSize planPart
  rw [hlen, hn1]
  by_cases hl : i + 1 = n
  · have hc : (i : Int) = (n : Int) - 1 := by omega
    simp only [if_pos hl, if_pos hc]
    apply wrap64_id <;> omega
  · have hc : ¬ (i : Int) = (n : Int) - 1 := by omega
    simp only [if_neg hl, if_neg hc]
    have hm : wrap64 (((i : Int) + 1) * Int.tdiv fs n - 1 - (i : Int) * Int.tdiv fs n)
        = ((i : Int) + 1) * Int.tdiv fs n - 1 - (i : Int) * Int.tdiv fs n := by
      apply wrap64_id <;> omega
    rw [hm]
    rw [wrap64_id (by omega) (by omega)]
    omega

theorem bytesInRange_planPart (fs : Int) (n i : Nat) (hi : i < n) (hfs : 0 < fs) :
    bytesInRange fs (planPart fs n i)
      = if i + 1 = n then fs - (i : Int) * Int.tdiv fs n else Int.tdiv fs n := by
  have hb := tdiv_mul_bounds_nonneg fs n i hi (by omega)
  have h3 : ((i : Int) + 1) * Int.tdiv fs n = (i : Int) * Int.tdiv fs n + Int.tdiv fs n := by
    ring
  rw [bytesInRange_eq]
  unfold planPart
  by_cases hl : i + 1 = n
  · simp only [if_pos hl]
    omega
  · have hlt : i + 1 < n := by omega
    have hb1 := tdiv_mul_bounds_nonneg fs n (i + 1) hlt (by omega)
    have hc : ((i + 1 : Nat) : Int) = (i : Int) + 1 := by push_cast; rfl
    rw [hc] at hb1
    simp only [if_neg hl]
    omega

theorem sum_map_range_const (q : Int) (f : Nat → Int) :
    ∀ m : Nat, (∀ i, i < m → f i = q) → ((List.range m).map f).sum = (m : Int) * q := by
  intro m
  induction m with
  | zero => intro _; simp
  | succ m ih =>
    intro hf
    rw [List.range_succ, List.map_append, List.sum_append, ih (fun i hi => hf i (by omega))]
    simp only [List.map_cons, List.map_nil, List.sum_cons, List.sum_nil, hf m (by omega)]
    push_cast
    ring

theorem plan_getD (fs : Int) (n i : Nat) (hi : i < n) :
    ((List.range n).map (planPart fs n)).getD i ⟨0, 0⟩ = planPart fs n i := by
  rw [List.getD_eq_getElem?_getD, List.getElem?_map, List.getElem?_range hi]
  rfl

/-- C10: for every file size `0 < fs` (an `int64`), every positive worker count
and every index of the plan of `GenerateParts`, the size `getPart` wants
(`End - Start` for the last part, `End - Start + 1` for the others) is the number
of bytes of the resource `[0, fs)` lying in the requested inclusive range
`[Start, End]`; the size wanted for the last part is
`floor(fs/n) + (fs mod n)`, and the sizes wanted for all parts sum to `fs`. -/
theorem wantedSize_counts_bytes (h : Hercules) (hfs : 0 < h.fs) (hfs2 : h.fs < 2 ^ 63)
    (hn : 0 < h.parts.length) (hn2 : (h.parts.length : Int) < 2 ^ 63) :
    (∀ (i : Nat) (p : Part), (GenerateParts h).1.parts[i]? = some p →
        wantedSize (GenerateParts h).1.parts i p = bytesInRange h.fs p)
      ∧ (∀ p, (GenerateParts h).1.parts.getLast? = some p →
          wantedSize (GenerateParts h).1.parts ((h.parts.length : Int) - 1) p
            = h.fs / h.parts.length + h.fs % h.parts.length)
      ∧ (wantedSizes (GenerateParts h).1.parts).sum = h.fs := by
  rw [GenerateParts_eq h (by omega) (by omega) (by omega) hfs2 hn2]
  simp only
  have hlen : ((List.range h.parts.length).map (planPart h.fs h.parts.length)).length
      = h.parts.length := by simp
  obtain ⟨m, hm⟩ : ∃ m, h.parts.length = m + 1 := ⟨h.parts.length - 1, by omega⟩
  refine ⟨?_, ?_, ?_⟩
  · intro i p hp
    have hi : i < h.parts.length := by
      have := (List.getElem?_eq_some.mp hp).1
      simpa using this
    simp only [List.getElem?_map, List.getElem?_range hi, Option.map_some',
      Option.some.injEq] at hp
    subst hp
    rw [wantedSize_planPart h.fs h.parts.length i _ hlen hi hfs hfs2 hn2,
      bytesInRange_planPart h.fs h.parts.length i hi hfs]
  · intro p hp
    rw [List.getLast?_eq_getElem?] at hp
    simp only [List.length_map, List.length_range, List.getElem?_map] at hp
    rw [List.getElem?_range (by omega)] at hp
    simp only [Option.map_some', Option.some.injEq] at hp
    subst hp
    have hc : ((h.parts.length : Int) - 1) = ((h.parts.length - 1 : Nat) : Int) := by omega
    rw [hc, wantedSize_planPart h.fs h.parts.length (h.parts.length - 1) _ hlen (by omega)
      hfs hfs2 hn2]
    have hl : h.parts.length - 1 + 1 = h.parts.length := by omega
    rw [if_pos hl, Int.tdiv_eq_ediv (by omega) (by omega), Int.emod_def, ← hc]
    ring
  · unfold wantedSizes
    rw [hlen]
    have hg : (List.range h.parts.length).map
          (fun (i : Nat) => wantedSize ((List.range h.parts.length).map
              (planPart h.fs h.parts.length)) (i : Int)
            (((List.range h.parts.length).map (planPart h.fs h.parts.length)).getD i ⟨0, 0⟩))
        = (List.range h.parts.length).map
          (fun (i : Nat) => if i + 1 = h.parts.length
            then h.fs - (i : Int) * Int.tdiv h.fs h.parts.length
            else Int.tdiv h.fs h.parts.length) := by
      apply List.map_congr_left
      intro i hi
      have hi' := List.mem_range.mp hi
      rw [plan_getD h.fs h.parts.length i hi',
        wantedSize_planPart h.fs h.parts.length i _ hlen hi' hfs hfs2 hn2]
    rw [hg, hm, List.range_succ, List.map_append, List.sum_append,
      sum_map_range_const (Int.tdiv h.fs (m + 1 : Nat))]
    · simp only [List.map_cons, List.map_nil, List.sum_cons, List.sum_nil, if_true]
      ring
    · intro i hi
      have hl : ¬ i + 1 = m + 1 := by omega
      rw [if_neg hl]

theorem wantedSize_counts_bytes_witness :
    (∀ (i : Nat) (p : Part), (GenerateParts (session 10 4)).1.parts[i]? = some p →
        wantedSize (GenerateParts (session 10 4)).1.parts i p
          = bytesInRange (session 10 4).fs p)
      ∧ (∀ p, (GenerateParts (session 10 4)).1.parts.getLast? = some p →
          wantedSize (GenerateParts (session 10 4)).1.parts
              (((session 10 4).parts.length : Int) - 1) p
            = (session 10 4).fs / (session 10 4).parts.length
                + (session 10 4).fs % (session 10 4).parts.length)
      ∧ (wantedSizes (GenerateParts (session 10 4)).1.parts).sum = (session 10 4).fs :=
  wantedSize_counts_bytes (session 10 4) (by decide) (by decide) (by decide) (by decide)

/-! ## `AddPartOn` and `New` -/

/-- C5 fails on the code for a negative index: the bounds check of `AddPartOn`
only looks at `index >= len(h.parts)`, so index -1 on a list of two parts
reaches `h.parts[index]` and the call panics instead of returning an error. -/
theorem AddPartOn_negative_index_panics :
    AddPartOn (session 100 2) (-1) 0 49 = .panic "index out of range" := by
  decide

/-- An index at or beyond the length is refused with an error and the session
is left as it was. -/
theorem AddPartOn_beyond_length (h : Hercules) (index start end_ : Int)
    (hi : (h.parts.length : Int) ≤ index) :
    AddPartOn h index start end_
      = .ret (h, some "the part number is greater than the capacity") := by
  unfold AddPartOn
  rw [if_pos (Or.inr hi)]

/-- An index inside `[0, len)` is written and `nil` is returned. -/
theorem AddPartOn_in_range (h : Hercules) (index start end_ : Int)
    (h0 : 0 ≤ index) (hi : index < (h.parts.length : Int)) :
    AddPartOn h index start end_
      = .ret ({ h with parts := h.parts.set index.toNat ⟨start, end_⟩ }, none) := by
  unfold AddPartOn
  have h1 : ¬ (h.parts.length = 0 ∨ index ≥ (h.parts.length : Int)) := by omega
  have h2 : ¬ index < 0 := by omega
  rw [if_neg h1, if_neg h2]

/-- C6, as the claim states it, fails: with an open file and the worker count 0
`New` returns a session and no error. -/
theorem New_zero_workers_no_error :
    ¬ (∃ e, New "http://host/file" (some 3) [0] = .ret (none, some e)) := by
  rintro ⟨e, he⟩
  simp [New] at he

/-- C6 (amended): for a `nil` file handle `New` returns an error and no session
for every worker count; for an open file and the worker count 0 (given or left
out) `New` returns no error and a session with zero parts, and `Preload` is
what refuses that session, before it sends any request. -/
theorem New_nil_file_or_zero_workers :
    (∀ (addr : String) (ws : List Int),
        New addr none ws = .ret (none, some "file pointer can't be nil"))
      ∧ (∀ (addr : String) (f : Nat) (rest : List Int),
          New addr (some f) [] = .ret (some (freshSession addr (some f) 0), none)
            ∧ New addr (some f) (0 :: rest)
                = .ret (some (freshSession addr (some f) 0), none)
            ∧ (freshSession addr (some f) 0).parts = [])
      ∧ (∀ (net : Net) (w : World) (addr : String) (f : Nat),
          Preload net (freshSession addr (some f) 0) w
            = .ret (freshSession addr (some f) 0, w,
                some "for using Preload, you must set number of workers first")) := by
  refine ⟨fun _ _ => rfl, fun _ _ _ => ⟨rfl, rfl, rfl⟩, fun _ _ _ _ => rfl⟩

/-! ## `Preload` -/

/-- C7: `Preload` on a session with zero workers returns an error and sends no
request; `Preload` whose probe reports the size 0 returns an error after the
one probe request. In both cases the part list, the worker counter and the file
are as before and no ranged request was sent. -/
theorem Preload_rejects_zero (net : Net) (h : Hercules) (w : World) :
    (h.parts.length = 0 →
        Preload net h w
          = .ret (h, w, some "for using Preload, you must set number of workers first"))
      ∧ (∀ res : Response, h.parts.length ≠ 0 → net.newRequest = none →
          net.doRequest none = .ok res → res.contentLength = some (.ok 0) →
          ∃ (h1 : Hercules) (e : String),
            Preload net h w
                = .ret (h1, { w with requests := w.requests ++ [none] }, some e)
              ∧ h1.parts = h.parts ∧ h1.wg = h.wg) := by
  constructor
  · intro h0
    unfold Preload
    rw [if_pos h0]
  · intro res hn hreq hdo hcl
    unfold Preload
    rw [if_neg hn]
    unfold FetchHeaders
    rw [hreq]
    simp only [hdo]
    by_cases ha : res.acceptRanges = false
    · rw [if_pos ha]
      exact ⟨h, _, rfl, rfl, rfl⟩
    · rw [if_neg ha, hcl]
      simp only [GenerateParts, if_true]
      exact ⟨{ h with fs := 0 }, _, rfl, rfl, rfl⟩

theorem Preload_rejects_zero_witness :
    Preload (fixedServer true (some (.ok 100)) []) (session 0 0) emptyWorld
        = .ret (session 0 0, emptyWorld,
            some "for using Preload, you must set number of workers first")
      ∧ ∃ (h1 : Hercules) (e : String),
          Preload (fixedServer true (some (.ok 0)) []) (session 0 3) emptyWorld
              = .ret (h1, { emptyWorld with requests := emptyWorld.requests ++ [none] }, some e)
            ∧ h1.parts = (session 0 3).parts ∧ h1.wg = (session 0 3).wg :=
  ⟨(Preload_rejects_zero (fixedServer true (some (.ok 100)) []) (session 0 0) emptyWorld).1 rfl,
   (Preload_rejects_zero (fixedServer true (some (.ok 0)) []) (session 0 3) emptyWorld).2
      ⟨true, some (.ok 0), []⟩ (by decide) rfl rfl rfl⟩

/-! ## `savePartOnDisk` -/

theorem overwrite_nil (disk : Disk) (off : Int) : overwrite disk [] off = disk := by
  funext i
  simp only [overwrite, List.length_nil]
  rw [if_neg (by omega)]

theorem overwrite_append (disk : Disk) (a b : List Byte) (off : Int) :
    overwrite (overwrite disk a off) b (off + a.length) = overwrite disk (a ++ b) off := by
  funext i
  simp only [overwrite, List.length_append, Nat.cast_add]
  by_cases h1 : off + (a.length : Int) ≤ i ∧ i < off + (a.length : Int) + (b.length : Int)
  · have h2 : off ≤ i ∧ i < off + ((a.length : Int) + (b.length : Int)) := by omega
    rw [if_pos h1, if_pos h2]
    have e : (i - off).toNat = a.length + (i - (off + (a.length : Int))).toNat := by omega
    rw [e, List.getD_eq_getElem?_getD, List.getD_eq_getElem?_getD,
      List.getElem?_append_right (by omega)]
    simp
  · rw [if_neg h1]
    by_cases h3 : off ≤ i ∧ i < off + (a.length : Int)
    · have h2 : off ≤ i ∧ i < off + ((a.length : Int) + (b.length : Int)) := by omega
      rw [if_pos h3, if_pos h2, List.getD_eq_getElem?_getD, List.getD_eq_getElem?_getD,
        List.getElem?_append_left (by omega)]
    · have h2 : ¬ (off ≤ i ∧ i < off + ((a.length : Int) + (b.length : Int))) := by omega
      rw [if_neg h3, if_neg h2]

theorem readRange_overwrite (disk : Disk) (data : List Byte) (off : Int) :
    readRange (overwrite disk data off) off data.length = data := by
  apply List.ext_getElem
  · simp [readRange]
  · intro i h1 h2
    simp only [readRange, List.getElem_map, List.getElem_range, overwrite]
    rw [if_pos (by omega)]
    have e : (off + (i : Int) - off).toNat = i := by omega
    rw [e, List.getD_eq_getElem?_getD, List.getElem?_eq_getElem h2]
    rfl

theorem overwrite_outside (disk : Disk) (data : List Byte) (off x : Int)
    (hx : x < off ∨ off + (data.length : Int) ≤ x) : overwrite disk data off x = disk x := by
  simp only [overwrite]
  rw [if_neg (by omega)]

/-- With a `WriteAt` that writes in full, the loop stores the chunks one after
the other from the start offset on. -/
theorem saveLoop_full (writeAt : WriteAtFn) (hfull : writesInFull writeAt) (n : Int)
    (rest : List ReadResult) :
    ∀ (chunks : List (List Byte)) (disk : Disk) (off : Int), 0 ≤ off →
      off + (chunks.flatten.length : Int) < 2 ^ 63 →
      saveLoop writeAt n (chunks.map dataRead ++ eofRead :: rest) disk off
        = (overwrite disk chunks.flatten off, none) := by
  intro chunks
  induction chunks with
  | nil =>
    intro disk off _ _
    simp [saveLoop, eofRead, overwrite_nil]
  | cons c cs ih =>
    intro disk off h0 hmax
    simp only [List.flatten_cons, List.length_append, Nat.cast_add] at hmax
    simp only [List.map_cons, List.cons_append, saveLoop, dataRead, hfull disk c off h0]
    have hw : wrap64 ((c.length : Int) + off) = off + (c.length : Int) := by
      rw [wrap64_id (by omega) (by omega)]; omega
    rw [hw]
    have := ih (overwrite disk c off) (off + (c.length : Int)) (by omega) (by omega)
    rw [overwrite_append] at this
    exact this

theorem osWriteAt_writesInFull : writesInFull osWriteAt := by
  intro disk data off h0
  simp only [osWriteAt]
  rw [if_neg (by omega)]

/-- C8 fails on the code for a stream whose last bytes arrive together with
end-of-stream: the two bytes `7, 9` of a part `{0, 2}` come in one read that
also returns `io.EOF`; `savePartOnDisk` tests the error first, leaves the loop
and returns `nil` with nothing written, so the file at `[0, 2)` is still
`0, 0`. The same happens through `Start` after `Preload` and `StartAll`, with a
server that declares `Content-Length: 2`. -/
theorem savePartOnDisk_drops_data_read_with_EOF :
    (∃ (h1 : Hercules) (w1 : World),
        savePartOnDisk osWriteAt (Run { session 2 1 with parts := [⟨0, 2⟩] }) emptyWorld
            [⟨[7, 9], some "EOF"⟩] 0 = .ret (h1, w1, none)
          ∧ readRange w1.disk 0 2 = [0, 0] ∧ readRange w1.disk 0 2 ≠ [7, 9])
      ∧ (GenerateParts (session 2 1)).1.parts = [⟨0, 2⟩]
      ∧ (∃ (h1 : Hercules) (w1 : World),
          Start (fixedServer true (some (.ok 2)) [⟨[7, 9], some "EOF"⟩]) osWriteAt
              (StartAll (GenerateParts (session 2 1)).1).1 emptyWorld 0 = .ret (h1, w1, none)
            ∧ readRange w1.disk 0 2 = [0, 0] ∧ readRange w1.disk 0 2 ≠ [7, 9]) :=
  ⟨⟨_, _, rfl, by decide, by decide⟩, by decide, ⟨_, _, rfl, by decide, by decide⟩⟩

/-- When end-of-stream arrives in a read of its own, with no bytes: for every
part whose start offset is not negative, every stream delivered as reads of
arbitrary sizes (each at most the 4 KiB buffer, each with a `nil` error), every
`WriteAt` that writes each chunk in full and a positive worker counter,
`savePartOnDisk` returns `nil` after calling `Done` once, the bytes of the file
at `[Start, Start + len(stream))` are the stream, and no other byte of the file
changes. -/
theorem savePartOnDisk_writes_stream (writeAt : WriteAtFn) (h : Hercules) (w : World)
    (n : Int) (p : Part) (chunks : List (List Byte)) (rest : List ReadResult)
    (hfull : writesInFull writeAt) (hn : 0 ≤ n) (hp : h.parts[n.toNat]? = some p)
    (h0 : 0 ≤ p.Start) (hmax : p.Start + (chunks.flatten.length : Int) < 2 ^ 63)
    (_hbuf : ∀ c ∈ chunks, c.length ≤ 4 * 1024) (hwg : 0 < h.wg) :
    ∃ w1 : World,
      savePartOnDisk writeAt h w (chunks.map dataRead ++ eofRead :: rest) n
          = .ret ({ h with wg := h.wg - 1 }, w1, none)
        ∧ readRange w1.disk p.Start chunks.flatten.length = chunks.flatten
        ∧ (∀ x : Int, x < p.Start ∨ p.Start + (chunks.flatten.length : Int) ≤ x →
            w1.disk x = w.disk x)
        ∧ w1.requests = w.requests := by
  refine ⟨{ w with disk := overwrite w.disk chunks.flatten p.Start }, ?_,
    readRange_overwrite _ _ _, fun x hx => overwrite_outside _ _ _ _ hx, rfl⟩
  unfold savePartOnDisk
  rw [if_neg (by omega), hp]
  simp only [saveLoop_full writeAt hfull n rest chunks w.disk p.Start h0 hmax,
    returnAfterDone, Done]
  rw [if_neg (by omega)]

/-! ## Workers and the outstanding-worker counter -/

/-- C9 fails on the code for a response without a `Content-Length` header:
after `StartAll` has called `Run` for the one worker, `Start 0` panics in
`getPart` at `resp.Header["Content-Length"][0]` and `Done` is never called. -/
theorem Start_missing_content_length_panics :
    (StartAll { session 100 1 with parts := [⟨0, 100⟩] }).1.wg = 1
      ∧ (StartAll { session 100 1 with parts := [⟨0, 100⟩] }).2 = [0]
      ∧ Start (fixedServer true none [eofRead]) osWriteAt
            (StartAll { session 100 1 with parts := [⟨0, 100⟩] }).1 emptyWorld 0
          = .panic "index out of range [0] with length 0" :=
  ⟨rfl, rfl, rfl⟩

/-- On every other outcome of a worker with an index of the part list (request
construction error, transport error, unparsable `Content-Length`, size
mismatch, read error, write error, success), with a positive counter, `Start`
returns and the counter is one less than before: `Done` was called once. -/
theorem Start_calls_Done_once (net : Net) (writeAt : WriteAtFn) (h : Hercules) (w : World)
    (partNum : Int) (h0 : 0 ≤ partNum) (hi : partNum < (h.parts.length : Int))
    (hwg : 0 < h.wg)
    (hcl : net.newRequest = none → ∀ (q : Option Part) (resp : Response),
      net.doRequest q = .ok resp → resp.contentLength ≠ none) :
    ∃ (h1 : Hercules) (w1 : World) (e : GoError),
      Start net writeAt h w partNum = .ret (h1, w1, e) ∧ h1.wg = h.wg - 1 := by
  have hc : ¬ (h.parts.length = 0 ∨ partNum ≥ (h.parts.length : Int)) := by omega
  have hneg : ¬ partNum < 0 := by omega
  have hlt : partNum.toNat < h.parts.length := by omega
  have hd : ∀ (k : Int) (w1 : World) (e : GoError),
      returnAfterDone h k w1 e = .ret ({ h with wg := h.wg - 1 }, w1, e) := by
    intro k w1 e
    simp only [returnAfterDone, Done]
    rw [if_neg (by omega)]
  unfold Start
  rw [if_neg hc]
  unfold getPart
  rw [if_neg hc]
  cases hreq : net.newRequest with
  | some e => exact ⟨_, _, _, hd _ _ _, rfl⟩
  | none =>
    simp only [if_neg hneg, List.getElem?_eq_getElem hlt]
    cases hdo : net.doRequest (some h.parts[partNum.toNat]) with
    | error e => exact ⟨_, _, _, hd _ _ _, rfl⟩
    | ok resp =>
      have hne := hcl hreq _ resp hdo
      cases hl : resp.contentLength with
      | none => exact absurd hl hne
      | some r =>
        cases r with
        | error e =>
          simp only [hl]
          exact ⟨_, _, _, hd _ _ _, rfl⟩
        | ok size =>
          simp only [hl]
          by_cases hs : size ≠ wantedSize h.parts partNum h.parts[partNum.toNat]
          · rw [if_pos hs]
            exact ⟨_, _, _, hd _ _ _, rfl⟩
          · rw [if_neg hs]
            unfold savePartOnDisk
            simp only [if_neg hneg, List.getElem?_eq_getElem hlt]
            exact ⟨_, _, _, hd _ _ _, rfl⟩

end Herc
